import Mathlib

/-!
Formal model of the flight-monitor repository's core logic, translated from the
Python sources:

* `get_weekend_dates`   — date-pair enumeration
  (`automated_flight_monitor.py`, `weekend_flight_finder.py`);
* `select_distributed_dates` — month-balanced down-sampling of date pairs
  (`weekend_flight_finder.py`; `paris_weekend_finder.py` shares the structure);
* `extract_best_flight` — cheapest-itinerary extraction
  (`weekend_flight_finder.py`, `automated_flight_monitor.py`);
* `analyze` — result aggregation (`analyze_results` in
  `automated_flight_monitor.py`).

Fallible Python operations (construction of an invalid `datetime`, division by
zero, `min`/indexing on an empty list) are modelled with `Except Unit`; an
`.error ()` result stands for a raised exception.  Calendar dates are modelled
structurally (`Date` with year/month/day as `Nat`) following the proleptic
Gregorian calendar used by Python's `datetime`; ISO `YYYY-MM-DD` strings and
their `[:7]` month prefixes are represented by the corresponding
`(year, month)` data (string lexicographic order on equal-width ISO prefixes
coincides with lexicographic order on `(year, month)`).  Floating-point steps
(the `carbon_kg` division by 1000.0) are outside the model and are noted where
relevant.
-/

/-! ## Calendar model (Python `datetime` fragment) -/

structure Date where
  year : Nat
  month : Nat
  day : Nat
deriving DecidableEq, Repr, Inhabited

/-- Gregorian leap-year rule, as implemented by Python's `calendar`/`datetime`. -/
def isLeap (y : Nat) : Bool :=
  y % 4 == 0 && (y % 100 != 0 || y % 400 == 0)

/-- Number of days in a month of a given year. -/
def daysInMonth (y m : Nat) : Nat :=
  if m = 2 then (if isLeap y then 29 else 28)
  else if m = 4 ∨ m = 6 ∨ m = 9 ∨ m = 11 then 30
  else 31

/-- Days in year `y` before the first day of month `m`. -/
def daysBeforeMonth (y m : Nat) : Nat :=
  (List.range (m - 1)).foldl (fun acc i => acc + daysInMonth y (i + 1)) 0

/-- Days before January 1 of year `y` (proleptic Gregorian, year 1 = first year). -/
def daysBeforeYear (y : Nat) : Nat :=
  365 * (y - 1) + (y - 1) / 4 - (y - 1) / 100 + (y - 1) / 400

/-- Python's `date.toordinal`: January 1 of year 1 has ordinal 1. -/
def toOrdinal (d : Date) : Nat :=
  daysBeforeYear d.year + daysBeforeMonth d.year d.month + d.day

/-- Python's `date.weekday`: 0 = Monday … 6 = Sunday.
`date(1,1,1)` (ordinal 1) was a Monday. -/
def weekday (d : Date) : Nat :=
  (toOrdinal d + 6) % 7

/-- The calendar day after `d` (valid dates only). -/
def nextDay (d : Date) : Date :=
  if d.day < daysInMonth d.year d.month then ⟨d.year, d.month, d.day + 1⟩
  else if d.month < 12 then ⟨d.year, d.month + 1, 1⟩
  else ⟨d.year + 1, 1, 1⟩

/-- The calendar day before `d` (valid dates only);
models `datetime - timedelta(days=1)`. -/
def predDay (d : Date) : Date :=
  if 1 < d.day then ⟨d.year, d.month, d.day - 1⟩
  else if 1 < d.month then ⟨d.year, d.month - 1, daysInMonth d.year (d.month - 1)⟩
  else ⟨d.year - 1, 12, 31⟩

/-- `d + timedelta(days := n)`. -/
def addDays (d : Date) : Nat → Date
  | 0 => d
  | n + 1 => addDays (nextDay d) n

/-- Python `datetime` comparison: lexicographic on (year, month, day). -/
def dateLe (a b : Date) : Bool :=
  if a.year ≠ b.year then a.year < b.year
  else if a.month ≠ b.month then a.month < b.month
  else a.day ≤ b.day

/-- `datetime(year, month, day)`: raises `ValueError` (here `.error ()`) unless
`1 ≤ year ≤ 9999`, `1 ≤ month ≤ 12` and the day is valid for the month. -/
def mkDatetime (y m d : Nat) : Except Unit Date :=
  if 1 ≤ y ∧ y ≤ 9999 ∧ 1 ≤ m ∧ m ≤ 12 ∧ 1 ≤ d ∧ d ≤ daysInMonth y m then
    .ok ⟨y, m, d⟩
  else .error ()

/-- A (departure, return) pair of dates. -/
abbrev DatePair := Date × Date

/-- One iteration step of the `while current_date <= end_date` loop in
`get_weekend_dates`: keep the day if its weekday is allowed and the return
date's month does not exceed `endMonth`.  `fuel` bounds the recursion; the
enumerated range always lies within a single calendar year (at most 366 days),
so the fuel of 400 supplied below is never exhausted. -/
def weekendLoop (allowedDays : List Nat) (tripLen : Nat) (endMonth : Nat)
    (endD : Date) : Nat → Date → List DatePair
  | 0, _ => []
  | fuel + 1, cur =>
    if dateLe cur endD then
      if weekday cur ∈ allowedDays then
        if (addDays cur tripLen).month ≤ endMonth then
          (cur, addDays cur tripLen) ::
            weekendLoop allowedDays tripLen endMonth endD fuel (nextDay cur)
        else weekendLoop allowedDays tripLen endMonth endD fuel (nextDay cur)
      else weekendLoop allowedDays tripLen endMonth endD fuel (nextDay cur)
    else []

/-- `get_weekend_dates` (`automated_flight_monitor.py` lines 78–95;
`weekend_flight_finder.py` instantiates `allowedDays = [2,3,4,5]`,
`tripLen = 5`): walk every day from the first of `startMonth` to the last of
`endMonth`, keeping allowed weekdays whose `tripLen`-day return stays within
`endMonth`.  The bound `datetime(year, endMonth + 1, 1) - timedelta(days=1)`
raises for `endMonth = 12` (month 13). -/
def get_weekend_dates (year startMonth endMonth : Nat) (allowedDays : List Nat)
    (tripLen : Nat) : Except Unit (List DatePair) :=
  match mkDatetime year startMonth 1, mkDatetime year (endMonth + 1) 1 with
  | .ok start, .ok firstAfter =>
    .ok (weekendLoop allowedDays tripLen endMonth (predDay firstAfter) 400 start)
  | _, _ => .error ()

/-! ## Date sampler (`select_distributed_dates`, `weekend_flight_finder.py`
lines 107–157; `select_smart_dates` in `paris_weekend_finder.py` shares the
guard, grouping and allocation logic, differing only in its float stride) -/

/-- The `dep_date[:7]` month key (`YYYY-MM`), modelled as `(year, month)`. -/
def monthKey (p : DatePair) : Nat × Nat :=
  (p.1.year, p.1.month)

/-- Lexicographic order on month keys — the order `sorted()` gives the
equal-width `YYYY-MM` strings. -/
def keyLe (a b : Nat × Nat) : Prop :=
  a.1 < b.1 ∨ (a.1 = b.1 ∧ a.2 ≤ b.2)

instance : DecidableRel keyLe := fun a b =>
  inferInstanceAs (Decidable (a.1 < b.1 ∨ (a.1 = b.1 ∧ a.2 ≤ b.2)))

/-- `sorted(dates_by_month.keys())`: the distinct departure-month keys of
`all`, in ascending order. -/
def monthsOf (all : List DatePair) : List (Nat × Nat) :=
  List.insertionSort keyLe (all.map monthKey).dedup

/-- The pairs of `all` falling in month `m`, in their original order
(`dates_by_month[month]`; Python dicts preserve encounter order). -/
def monthGroup (all : List DatePair) (m : Nat × Nat) : List DatePair :=
  all.filter (fun p => decide (monthKey p = m))

/-- The inner per-month selection of `select_distributed_dates`
(lines 143–152): take the whole month if it is small enough, otherwise pick
`num` indices spaced by the integer stride `len // num` — dividing by zero
(hence raising) when `num = 0`. -/
def selectFromMonth (md : List DatePair) (num : Nat) : Except Unit (List DatePair) :=
  if md.length ≤ num then .ok md
  else if num = 0 then .error ()
  else .ok ((List.range num).filterMap (fun j => md.get? (j * (md.length / num))))

/-- The `for i, month in enumerate(months)` loop (lines 137–155): month `i`
receives `base + 1` slots if `i < rem`, else `base`; selections are
concatenated in month order.  An exception in any month aborts the whole
call, so `Except` short-circuits. -/
def goMonths (all : List DatePair) (base rem : Nat) :
    Nat → List (Nat × Nat) → Except Unit (List DatePair)
  | _, [] => .ok []
  | i, m :: ms =>
    match selectFromMonth (monthGroup all m) (base + if i < rem then 1 else 0),
          goMonths all base rem (i + 1) ms with
    | .ok sel, .ok rest => .ok (sel ++ rest)
    | _, _ => .error ()

/-- `select_distributed_dates(all_dates, max_dates)`: identity when the input
already fits, otherwise a month-balanced selection truncated to `max_dates`.
(When `all.length > max_dates` the input — and hence `monthsOf all` — is
nonempty, so the `max_dates // len(months)` division cannot itself raise.) -/
def select_distributed_dates (all : List DatePair) (max_dates : Nat) :
    Except Unit (List DatePair) :=
  if all.length ≤ max_dates then .ok all
  else
    match goMonths all (max_dates / (monthsOf all).length)
        (max_dates % (monthsOf all).length) 0 (monthsOf all) with
    | .ok sel => .ok (sel.take max_dates)
    | .error e => .error e

/-! ## Itinerary extraction (`extract_best_flight`, `weekend_flight_finder.py`
lines 199–246; `extract_flight_info` in `automated_flight_monitor.py`
lines 124–151 is the same selection logic).  JSON fields read with
`.get(key, default)` are modelled as `Option` (a missing list defaults to
`[]`, so list fields are plain lists). -/

structure Segment where
  airline : Option String
deriving DecidableEq, Repr

structure LayoverInfo where
  id : Option String
deriving DecidableEq, Repr

structure CarbonEmissions where
  this_flight : Option Int
deriving DecidableEq, Repr

structure Itinerary where
  price : Option Int
  total_duration : Option Int
  carbon_emissions : Option CarbonEmissions
  flights : List Segment
  layovers : List LayoverInfo
deriving DecidableEq, Repr

structure SearchData where
  best_flights : List Itinerary
  other_flights : List Itinerary
deriving DecidableEq, Repr

/-- `FlightOption` (dataclass in `weekend_flight_finder.py`).  `carbon_kg`
(a float, grams / 1000.0) is represented by the raw gram count
`carbon_g` that the code divides; the division itself is not modelled. -/
structure FlightOption where
  destination : String
  destination_city : String
  departure_date : String
  return_date : String
  price : Int
  duration_minutes : Int
  carbon_g : Int
  airline : String
  direct_flight : Bool
  layovers : List String
  search_data : Itinerary
deriving DecidableEq, Repr

/-- The comparison `key(x) < key(best)` made by Python's `min` with
`key=lambda x: x.get('price', float('inf'))`: a missing price is `+∞`. -/
def optLt : Option Int → Option Int → Bool
  | some a, some b => a < b
  | some _, none => true
  | none, _ => false

/-- A missing price viewed in `WithTop Int` (`none` = `float('inf')`),
used to state properties of `optLt`. -/
def extK : Option Int → WithTop Int
  | none => ⊤
  | some a => (a : WithTop Int)

/-- Python's `min(iterable, key=...)` on a nonempty list `a :: l`: scan left to
right, replacing the current best only on a strictly smaller key — so the
first minimum wins. -/
def minByFold {α : Type} (key : α → Option Int) (a : α) (l : List α) : α :=
  l.foldl (fun acc x => if optLt (key x) (key acc) then x else acc) a

/-- `min(l, key=...)`, `none` when the list is empty (Python raises). -/
def minByE {α : Type} (key : α → Option Int) : List α → Option α
  | [] => none
  | a :: l => some (minByFold key a l)

/-- Lines 204–206: `flights = search_data.get('best_flights', [])`;
`if not flights: flights = search_data.get('other_flights', [])`. -/
def effectiveFlights (sd : SearchData) : List Itinerary :=
  if sd.best_flights.isEmpty then sd.other_flights else sd.best_flights

/-- `extract_best_flight(search_data, destination, destination_city,
departure_date, return_date)`: `none` when both itinerary lists are empty,
otherwise the first minimum-price itinerary, flattened into a `FlightOption`
(with `search_data := best_flight`). -/
def extract_best_flight (sd : SearchData) (dest dcity dep ret : String) :
    Option FlightOption :=
  match effectiveFlights sd with
  | [] => none
  | a :: rest =>
    let best := minByFold (fun x => x.price) a rest
    some { destination := dest
           destination_city := dcity
           departure_date := dep
           return_date := ret
           price := best.price.getD 0
           duration_minutes := best.total_duration.getD 0
           carbon_g := match best.carbon_emissions with
             | some c => c.this_flight.getD 0
             | none => 0
           airline := match best.flights with
             | [] => "Unknown"
             | s :: _ => s.airline.getD "Unknown"
           direct_flight := best.flights.length == 1
           layovers := best.layovers.map (fun l => l.id.getD "Unknown")
           search_data := best }

/-! ## Result aggregation (`analyze_results`, `automated_flight_monitor.py`
lines 196–249).  A quote record is the dict built by `extract_flight_info`
(`carbon_kg` omitted as above).  `analyze_results` returns `{}` on empty
input, modelled as `.ok none`; `.error ()` models a raised exception. -/

structure QuoteRecord where
  departure_date : String
  return_date : String
  price : Int
  duration_minutes : Int
  airline : String
  direct_flight : Bool
  layovers : List String
  departure_day : String
  return_day : String
  month : String
deriving DecidableEq, Repr

structure MonthStats where
  count : Nat
  min_price : Int
  avg_price : Int
  best_deal : QuoteRecord
deriving DecidableEq, Repr

structure DayStats where
  count : Nat
  avg_price : Int
deriving DecidableEq, Repr

structure Analysis where
  total_options : Nat
  price_min : Int
  price_max : Int
  price_avg : Int
  price_median : Int
  api_calls_used : Nat
  by_month : List (String × MonthStats)
  by_day : List (String × DayStats)
  best_deals : List QuoteRecord
  direct_flights : List QuoteRecord
deriving DecidableEq, Repr

/-- `[r['price'] for r in results]`. -/
def pricesOf (rs : List QuoteRecord) : List Int :=
  rs.map (fun r => r.price)

/-- Python `min(l)` for ints; raises on the empty list. -/
def listMin : List Int → Except Unit Int
  | [] => .error ()
  | a :: l => .ok (l.foldl min a)

/-- Python `max(l)` for ints; raises on the empty list. -/
def listMax : List Int → Except Unit Int
  | [] => .error ()
  | a :: l => .ok (l.foldl max a)

/-- Python `a // b` on ints: floor division, raising on `b = 0`. -/
def pyFloorDiv (a b : Int) : Except Unit Int :=
  if b = 0 then .error () else .ok (Int.fdiv a b)

/-- Python `sorted` on a list of ints (ascending). -/
def sortInts (l : List Int) : List Int :=
  List.insertionSort (fun a b : Int => a ≤ b) l

/-- The distinct values of `f` over `l` in first-encounter order — the key
order of a Python dict built by appending (`seen` holds keys already
emitted). -/
def keysAux {α β : Type} [DecidableEq β] (f : α → β) (seen : List β) :
    List α → List β
  | [] => []
  | a :: l =>
    if f a ∈ seen then keysAux f seen l
    else f a :: keysAux f (f a :: seen) l

def keysInOrder {α β : Type} [DecidableEq β] (f : α → β) (l : List α) : List β :=
  keysAux f [] l

/-- Sequence a fallible function over a list, stopping at the first raise. -/
def mapME {α β : Type} (f : α → Except Unit β) : List α → Except Unit (List β)
  | [] => .ok []
  | a :: l =>
    match f a, mapME f l with
    | .ok b, .ok bs => .ok (b :: bs)
    | _, _ => .error ()

/-- One `analysis['by_month'][month]` entry (lines 221–228): count, min and
floor-averaged price of the month's records, and
`min(results, key=lambda x: x['price'] if x['month'] == month else inf)`. -/
def monthStats (results : List QuoteRecord) (k : String) :
    Except Unit (String × MonthStats) :=
  match listMin (pricesOf (results.filter (fun r => decide (r.month = k)))),
        pyFloorDiv (pricesOf (results.filter (fun r => decide (r.month = k)))).sum
          ((results.filter (fun r => decide (r.month = k))).length : Int),
        minByE (fun r => if r.month = k then some r.price else none) results with
  | .ok mn, .ok avg, some bd =>
    .ok (k, { count := (results.filter (fun r => decide (r.month = k))).length
              min_price := mn, avg_price := avg, best_deal := bd })
  | _, _, _ => .error ()

def byMonth (results : List QuoteRecord) :
    Except Unit (List (String × MonthStats)) :=
  mapME (monthStats results) (keysInOrder (fun r => r.month) results)

/-- One `analysis['by_day'][day]` entry (lines 238–243). -/
def dayStats (results : List QuoteRecord) (k : String) :
    Except Unit (String × DayStats) :=
  match pyFloorDiv (pricesOf (results.filter (fun r => decide (r.departure_day = k)))).sum
      ((results.filter (fun r => decide (r.departure_day = k))).length : Int) with
  | .ok avg =>
    .ok (k, { count := (results.filter (fun r => decide (r.departure_day = k))).length
              avg_price := avg })
  | .error e => .error e

def byDay (results : List QuoteRecord) :
    Except Unit (List (String × DayStats)) :=
  mapME (dayStats results) (keysInOrder (fun r => r.departure_day) results)

/-- `analyze_results(results)` (lines 196–249).  Returns `{}` (here
`.ok none`) on empty input; otherwise the statistics dict, with
`best_deals = results[:5]` taken from the input in its given order (the
caller `run_complete_scan` sorts by price before calling, line 187). -/
def analyze (results : List QuoteRecord) (api_calls_used : Nat) :
    Except Unit (Option Analysis) :=
  if results = [] then .ok none
  else
    match listMin (pricesOf results), listMax (pricesOf results),
          pyFloorDiv (pricesOf results).sum ((pricesOf results).length : Int),
          (sortInts (pricesOf results)).get? ((pricesOf results).length / 2),
          byMonth results, byDay results with
    | .ok pmin, .ok pmax, .ok pavg, some pmed, .ok bm, .ok bd =>
      .ok (some { total_options := results.length
                  price_min := pmin
                  price_max := pmax
                  price_avg := pavg
                  price_median := pmed
                  api_calls_used := api_calls_used
                  by_month := bm
                  by_day := bd
                  best_deals := results.take 5
                  direct_flights := results.filter (fun r => r.direct_flight) })
    | _, _, _, _, _, _ => .error ()

/-- `results.sort(key=lambda x: x['price'])` (`run_complete_scan`, line 187):
stable ascending sort by price. -/
def priceLe (x y : QuoteRecord) : Prop :=
  x.price ≤ y.price

instance : DecidableRel priceLe := fun x y =>
  inferInstanceAs (Decidable (x.price ≤ y.price))

instance : IsTotal QuoteRecord priceLe :=
  ⟨fun a b => Int.le_total a.price b.price⟩

instance : IsTrans QuoteRecord priceLe :=
  ⟨fun _ _ _ h1 h2 => le_trans h1 h2⟩

def sortByPrice (rs : List QuoteRecord) : List QuoteRecord :=
  List.insertionSort priceLe rs

/-- Follows the spec's words: `price_avg` is the integer floor division of the
price sum by the record count. -/
def spec_price_avg (rs : List QuoteRecord) : Int :=
  Int.fdiv (pricesOf rs).sum (rs.length : Int)

/-- Follows the spec's words: `price_median` is the ascending-sorted price
list's element at index `len // 2`. -/
def spec_price_median (rs : List QuoteRecord) : Int :=
  (sortInts (pricesOf rs)).getD (rs.length / 2) 0

/-! ## Helper lemmas -/

lemma one_le_daysInMonth (y m : Nat) : 1 ≤ daysInMonth y m := by
  unfold daysInMonth
  split
  · split <;> norm_num
  · split <;> norm_num

lemma weekendLoop_mem (allowed : List Nat) (len em : Nat) (endD : Date) :
    ∀ (fuel : Nat) (cur : Date) (p : DatePair),
      p ∈ weekendLoop allowed len em endD fuel cur →
      weekday p.1 ∈ allowed ∧ p.2 = addDays p.1 len ∧ p.2.month ≤ em := by
  intro fuel
  induction fuel with
  | zero =>
    intro cur p hp
    simp [weekendLoop] at hp
  | succ n ih =>
    intro cur p hp
    unfold weekendLoop at hp
    split at hp
    · split at hp
      · split at hp
        · rw [List.mem_cons] at hp
          rcases hp with hp | hp
          · subst hp
            refine ⟨?_, rfl, ?_⟩ <;> assumption
          · exact ih _ _ hp
        · exact ih _ _ hp
      · exact ih _ _ hp
    · simp at hp

/-! ## Claim theorems -/

/-- C8: the aggregator called on the empty record list returns the empty
report (`{}`, i.e. `none`: every field absent) and does not raise. -/
theorem analyze_empty_ok : ∀ c : Nat, analyze [] c = .ok none := by
  intro c
  rfl

/-- C9: when `all_pairs` already fits in `target_count` the sampler returns
`all_pairs` itself unchanged, and re-applying the sampler to its own output
with the same target returns that output unchanged. -/
theorem select_noop_idempotent (all : List DatePair) (t : Nat)
    (h : all.length ≤ t) :
    select_distributed_dates all t = .ok all ∧
    ∀ out, select_distributed_dates all t = .ok out →
      select_distributed_dates out t = .ok out := by
  have h1 : select_distributed_dates all t = .ok all := by
    unfold select_distributed_dates
    rw [if_pos h]
  refine ⟨h1, fun out hout => ?_⟩
  rw [h1] at hout
  injection hout with h2
  subst h2
  exact h1

theorem select_noop_idempotent_witness :
    select_distributed_dates [(⟨2026, 4, 1⟩, ⟨2026, 4, 5⟩)] 3 =
      .ok [(⟨2026, 4, 1⟩, ⟨2026, 4, 5⟩)] :=
  (select_noop_idempotent [(⟨2026, 4, 1⟩, ⟨2026, 4, 5⟩)] 3 (by norm_num)).1

/-- C10: for every year and start month, calling the enumerator with
`end_month = 12` raises (it would construct `datetime(year, 13, 1)`), while
for every `end_month ≤ 11` (and a year `datetime` accepts) the bounding
construction `datetime(year, end_month + 1, 1)` succeeds. -/
theorem get_weekend_dates_month13 :
    (∀ (y sm : Nat) (allowed : List Nat) (len : Nat),
        get_weekend_dates y sm 12 allowed len = .error ()) ∧
    (∀ y em : Nat, 1 ≤ y → y ≤ 9999 → em ≤ 11 →
        mkDatetime y (em + 1) 1 = .ok ⟨y, em + 1, 1⟩) := by
  constructor
  · intro y sm allowed len
    have h13 : mkDatetime y (12 + 1) 1 = .error () := by
      unfold mkDatetime
      rw [if_neg]
      intro hc
      exact absurd hc.2.2.2.1 (by norm_num)
    unfold get_weekend_dates
    rw [h13]
    cases mkDatetime y sm 1 <;> rfl
  · intro y em h1 h2 h3
    unfold mkDatetime
    rw [if_pos]
    exact ⟨h1, h2, by omega, by omega, le_refl 1, one_le_daysInMonth y (em + 1)⟩

theorem get_weekend_dates_month13_witness :
    get_weekend_dates 2026 4 12 [2] 4 = .error () ∧
    mkDatetime 2026 7 1 = .ok ⟨2026, 7, 1⟩ :=
  ⟨get_weekend_dates_month13.1 2026 4 [2] 4,
   get_weekend_dates_month13.2 2026 6 (by norm_num) (by norm_num) (by norm_num)⟩

/-- C3: whenever the enumerator returns normally, every produced pair has an
allowed departure weekday, a return date equal to the departure plus the trip
length, and a return month number at most `end_month`. -/
theorem get_weekend_dates_pairs_spec (y sm em : Nat) (allowed : List Nat)
    (len : Nat) (l : List DatePair)
    (h : get_weekend_dates y sm em allowed len = .ok l)
    (p : DatePair) (hp : p ∈ l) :
    weekday p.1 ∈ allowed ∧ p.2 = addDays p.1 len ∧ p.2.month ≤ em := by
  unfold get_weekend_dates at h
  cases h1 : mkDatetime y sm 1 with
  | error e =>
    rw [h1] at h
    exact absurd h (by simp)
  | ok start =>
    cases h2 : mkDatetime y (em + 1) 1 with
    | error e =>
      rw [h1, h2] at h
      exact absurd h (by simp)
    | ok fa =>
      rw [h1, h2] at h
      injection h with h3
      exact weekendLoop_mem allowed len em (predDay fa) 400 start p (h3 ▸ hp)

def aprilWedList : List DatePair :=
  [(⟨2026, 4, 1⟩, ⟨2026, 4, 5⟩), (⟨2026, 4, 8⟩, ⟨2026, 4, 12⟩),
   (⟨2026, 4, 15⟩, ⟨2026, 4, 19⟩), (⟨2026, 4, 22⟩, ⟨2026, 4, 26⟩)]

theorem get_weekend_dates_pairs_spec_witness :
    weekday ⟨2026, 4, 1⟩ ∈ [2] ∧
    (⟨2026, 4, 5⟩ : Date) = addDays ⟨2026, 4, 1⟩ 4 ∧
    (⟨2026, 4, 5⟩ : Date).month ≤ 4 :=
  get_weekend_dates_pairs_spec 2026 4 4 [2] 4 aprilWedList (by rfl)
    (⟨2026, 4, 1⟩, ⟨2026, 4, 5⟩) (by decide)

lemma selectFromMonth_ok_pos {md : List DatePair} {num : Nat}
    {sel : List DatePair} (hne : md ≠ [])
    (h : selectFromMonth md num = .ok sel) : 0 < num := by
  unfold selectFromMonth at h
  by_cases hle : md.length ≤ num
  · have : 0 < md.length := List.length_pos.mpr hne
    omega
  · rw [if_neg hle] at h
    by_cases h0 : num = 0
    · rw [if_pos h0] at h
      exact absurd h (by simp)
    · omega

lemma selectFromMonth_ok_nonempty {md : List DatePair} {num : Nat}
    {sel : List DatePair} (hne : md ≠ [])
    (h : selectFromMonth md num = .ok sel) : sel ≠ [] := by
  have hpos := selectFromMonth_ok_pos hne h
  unfold selectFromMonth at h
  by_cases hle : md.length ≤ num
  · rw [if_pos hle] at h
    injection h with h1
    subst h1
    exact hne
  · rw [if_neg hle, if_neg (by omega)] at h
    injection h with h1
    subst h1
    have hlen : 0 < md.length := List.length_pos.mpr hne
    cases hg : md.get? 0 with
    | none =>
      have := List.get?_eq_none.mp hg
      omega
    | some v =>
      apply List.ne_nil_of_mem (a := v)
      apply List.mem_filterMap.mpr
      refine ⟨0, List.mem_range.mpr hpos, ?_⟩
      rw [Nat.zero_mul]
      exact hg

lemma goMonths_ok_num_pos (all : List DatePair) (base rem : Nat) :
    ∀ (ms : List (Nat × Nat)) (i : Nat) (res : List DatePair),
      goMonths all base rem i ms = .ok res →
      ∀ k (hk : k < ms.length),
        monthGroup all (ms.get ⟨k, hk⟩) ≠ [] →
        0 < base + (if i + k < rem then 1 else 0) := by
  intro ms
  induction ms with
  | nil =>
    intro i res _ k hk
    exact absurd hk (by simp)
  | cons m ms ih =>
    intro i res h k hk hne
    unfold goMonths at h
    cases h1 : selectFromMonth (monthGroup all m)
        (base + if i < rem then 1 else 0) with
    | error e =>
      rw [h1] at h
      cases goMonths all base rem (i + 1) ms <;> exact absurd h (by simp)
    | ok sel =>
      cases h2 : goMonths all base rem (i + 1) ms with
      | error e =>
        rw [h1, h2] at h
        exact absurd h (by simp)
      | ok rest =>
        cases k with
        | zero =>
          have hpos := selectFromMonth_ok_pos hne h1
          simpa using hpos
        | succ k' =>
          have hk' : k' < ms.length := by
            simp at hk
            omega
          have := ih (i + 1) rest h2 k' hk' hne
          have harith : i + 1 + k' = i + (k' + 1) := by omega
          rw [harith] at this
          exact this

lemma goMonths_ok_length (all : List DatePair) (base rem : Nat) :
    ∀ (ms : List (Nat × Nat)) (i : Nat) (res : List DatePair),
      goMonths all base rem i ms = .ok res →
      (∀ m ∈ ms, monthGroup all m ≠ []) → ms.length ≤ res.length := by
  intro ms
  induction ms with
  | nil =>
    intro i res _ _
    simp
  | cons m ms ih =>
    intro i res h hne
    unfold goMonths at h
    cases h1 : selectFromMonth (monthGroup all m)
        (base + if i < rem then 1 else 0) with
    | error e =>
      rw [h1] at h
      cases goMonths all base rem (i + 1) ms <;> exact absurd h (by simp)
    | ok sel =>
      cases h2 : goMonths all base rem (i + 1) ms with
      | error e =>
        rw [h1, h2] at h
        exact absurd h (by simp)
      | ok rest =>
        rw [h1, h2] at h
        injection h with h3
        subst h3
        have hsel : sel ≠ [] :=
          selectFromMonth_ok_nonempty (hne m (by simp)) h1
        have h4 : 0 < sel.length := List.length_pos.mpr hsel
        have h5 : ms.length ≤ rest.length :=
          ih (i + 1) rest h2 (fun m' hm' => hne m' (by simp [hm']))
        rw [List.length_append]
        simp only [List.length_cons]
        omega

lemma monthsOf_groups_nonempty (all : List DatePair) :
    ∀ m ∈ monthsOf all, monthGroup all m ≠ [] := by
  intro m hm
  have h1 : m ∈ (all.map monthKey).dedup :=
    (List.perm_insertionSort keyLe _).subset hm
  have h2 : m ∈ all.map monthKey := List.mem_dedup.mp h1
  obtain ⟨p, hp, hpk⟩ := List.mem_map.mp h2
  apply List.ne_nil_of_mem (a := p)
  unfold monthGroup
  rw [List.mem_filter]
  exact ⟨hp, by simp [hpk]⟩

/-- C4 (the claim, confirmed): with at least one pair, a target of at least 1
that is smaller than the pair count, and more distinct departure months than
the target, the sampler raises a division-by-zero error (`.error ()`) instead
of returning: every month at index `≥ target_count` is allocated
`num_from_month = 0` slots and the stride `len(month_dates) // 0` raises. -/
theorem select_month_overflow_raises (all : List DatePair) (t : Nat)
    (h1 : 1 ≤ t) (h2 : t < all.length) (h3 : t < (monthsOf all).length) :
    select_distributed_dates all t = .error () := by
  unfold select_distributed_dates
  rw [if_neg (by omega)]
  cases hgo : goMonths all (t / (monthsOf all).length)
      (t % (monthsOf all).length) 0 (monthsOf all) with
  | error e =>
    cases e
    rfl
  | ok sel =>
    exfalso
    have hk := goMonths_ok_num_pos all (t / (monthsOf all).length)
      (t % (monthsOf all).length) (monthsOf all) 0 sel hgo t h3
      (monthsOf_groups_nonempty all _ (List.get_mem _ _ _))
    rw [Nat.div_eq_of_lt h3, Nat.mod_eq_of_lt h3] at hk
    simp only [Nat.zero_add] at hk
    rw [if_neg (lt_irrefl t)] at hk
    exact absurd hk (by norm_num)

def ex4pairs : List DatePair :=
  [(⟨2026, 4, 1⟩, ⟨2026, 4, 5⟩), (⟨2026, 5, 1⟩, ⟨2026, 5, 5⟩)]

theorem select_month_overflow_raises_witness :
    select_distributed_dates ex4pairs 1 = .error () :=
  select_month_overflow_raises ex4pairs 1 (by norm_num) (by decide) (by decide)

lemma selectFromMonth_ok_len_le {md : List DatePair} {num : Nat}
    {sel : List DatePair} (h : selectFromMonth md num = .ok sel) :
    sel.length ≤ num := by
  unfold selectFromMonth at h
  by_cases hle : md.length ≤ num
  · rw [if_pos hle] at h
    injection h with h1
    subst h1
    exact hle
  · rw [if_neg hle] at h
    by_cases h0 : num = 0
    · rw [if_pos h0] at h
      exact absurd h (by simp)
    · rw [if_neg h0] at h
      injection h with h1
      subst h1
      have hb := List.length_filterMap_le
        (fun j => md.get? (j * (md.length / num))) (List.range num)
      rw [List.length_range] at hb
      exact hb

lemma selectFromMonth_ok_sub {md : List DatePair} {num : Nat}
    {sel : List DatePair} (h : selectFromMonth md num = .ok sel) :
    ∀ p ∈ sel, p ∈ md := by
  unfold selectFromMonth at h
  by_cases hle : md.length ≤ num
  · rw [if_pos hle] at h
    injection h with h1
    subst h1
    exact fun p hp => hp
  · rw [if_neg hle] at h
    by_cases h0 : num = 0
    · rw [if_pos h0] at h
      exact absurd h (by simp)
    · rw [if_neg h0] at h
      injection h with h1
      subst h1
      intro p hp
      obtain ⟨j, _, hj⟩ := List.mem_filterMap.mp hp
      exact List.get?_mem hj

lemma goMonths_ok_len_le (all : List DatePair) (base rem : Nat) :
    ∀ (ms : List (Nat × Nat)) (i : Nat) (sel : List DatePair),
      goMonths all base rem i ms = .ok sel →
      sel.length ≤ ms.length * base + (rem - i) := by
  intro ms
  induction ms with
  | nil =>
    intro i sel h
    injection h with h1
    subst h1
    simp
  | cons m ms ih =>
    intro i sel h
    unfold goMonths at h
    cases h1 : selectFromMonth (monthGroup all m)
        (base + if i < rem then 1 else 0) with
    | error e =>
      rw [h1] at h
      cases goMonths all base rem (i + 1) ms <;> exact absurd h (by simp)
    | ok s1 =>
      cases h2 : goMonths all base rem (i + 1) ms with
      | error e =>
        rw [h1, h2] at h
        exact absurd h (by simp)
      | ok rest =>
        rw [h1, h2] at h
        injection h with h3
        subst h3
        have hb1 := selectFromMonth_ok_len_le h1
        have hb2 := ih (i + 1) rest h2
        rw [List.length_append, List.length_cons]
        have hexp : (ms.length + 1) * base = ms.length * base + base := by ring
        by_cases hir : i < rem
        · rw [if_pos hir] at hb1
          omega
        · rw [if_neg hir] at hb1
          omega

lemma goMonths_ok_month_cover (all : List DatePair) (base rem : Nat) :
    ∀ (ms : List (Nat × Nat)) (i : Nat) (sel : List DatePair),
      goMonths all base rem i ms = .ok sel →
      ∀ m ∈ ms, monthGroup all m ≠ [] → ∃ p ∈ sel, monthKey p = m := by
  intro ms
  induction ms with
  | nil =>
    intro i sel _ m hm
    exact absurd hm (by simp)
  | cons m0 ms ih =>
    intro i sel h m hm hne
    unfold goMonths at h
    cases h1 : selectFromMonth (monthGroup all m0)
        (base + if i < rem then 1 else 0) with
    | error e =>
      rw [h1] at h
      cases goMonths all base rem (i + 1) ms <;> exact absurd h (by simp)
    | ok s1 =>
      cases h2 : goMonths all base rem (i + 1) ms with
      | error e =>
        rw [h1, h2] at h
        exact absurd h (by simp)
      | ok rest =>
        rw [h1, h2] at h
        injection h with h3
        subst h3
        rw [List.mem_cons] at hm
        rcases hm with hm | hm
        · subst hm
          have hs1 : s1 ≠ [] := selectFromMonth_ok_nonempty hne h1
          obtain ⟨p, hp⟩ := List.exists_mem_of_ne_nil s1 hs1
          have hpmd := selectFromMonth_ok_sub h1 p hp
          unfold monthGroup at hpmd
          have hk : monthKey p = m := of_decide_eq_true (List.mem_filter.mp hpmd).2
          exact ⟨p, List.mem_append_left _ hp, hk⟩
        · obtain ⟨p, hp, hk⟩ := ih (i + 1) rest h2 m hm hne
          exact ⟨p, List.mem_append_right _ hp, hk⟩

/-- C1 (amended): whenever the sampler returns normally its output has at
most `target_count` pairs; if the input already fits, the output is the
input itself; and otherwise the output still contains, for every distinct
departure month of the input, at least one pair of that month.  (The
originally claimed lower bound `min(target_count, len(all_pairs))` fails —
see `select_lower_bound_cex`.) -/
theorem select_distributed_bounds (all : List DatePair) (t : Nat)
    (out : List DatePair) (h : select_distributed_dates all t = .ok out) :
    out.length ≤ t ∧ (all.length ≤ t → out = all) ∧
    (t < all.length → ∀ m ∈ monthsOf all, ∃ p ∈ out, monthKey p = m) := by
  unfold select_distributed_dates at h
  by_cases hle : all.length ≤ t
  · rw [if_pos hle] at h
    injection h with h1
    subst h1
    exact ⟨hle, fun _ => rfl, fun hlt => absurd hlt (by omega)⟩
  · rw [if_neg hle] at h
    cases hgo : goMonths all (t / (monthsOf all).length)
        (t % (monthsOf all).length) 0 (monthsOf all) with
    | error e =>
      rw [hgo] at h
      exact absurd h (by simp)
    | ok sel =>
      rw [hgo] at h
      injection h with h1
      subst h1
      refine ⟨?_, fun hc => absurd hc hle, fun _ m hm => ?_⟩
      · rw [List.length_take]
        exact min_le_left _ _
      · have hsum : sel.length ≤ t := by
          have hb := goMonths_ok_len_le all (t / (monthsOf all).length)
            (t % (monthsOf all).length) (monthsOf all) 0 sel hgo
          have hdm := Nat.div_add_mod t (monthsOf all).length
          omega
        rw [List.take_of_length_le hsum]
        exact goMonths_ok_month_cover all (t / (monthsOf all).length)
          (t % (monthsOf all).length) (monthsOf all) 0 sel hgo m hm
          (monthsOf_groups_nonempty all m hm)

/-- Input for C1: one April pair and ten May pairs (11 pairs, 2 months). -/
def ex1pairs : List DatePair :=
  [(⟨2026, 4, 2⟩, ⟨2026, 4, 6⟩),
   (⟨2026, 5, 1⟩, ⟨2026, 5, 5⟩), (⟨2026, 5, 2⟩, ⟨2026, 5, 6⟩),
   (⟨2026, 5, 3⟩, ⟨2026, 5, 7⟩), (⟨2026, 5, 4⟩, ⟨2026, 5, 8⟩),
   (⟨2026, 5, 5⟩, ⟨2026, 5, 9⟩), (⟨2026, 5, 6⟩, ⟨2026, 5, 10⟩),
   (⟨2026, 5, 7⟩, ⟨2026, 5, 11⟩), (⟨2026, 5, 8⟩, ⟨2026, 5, 12⟩),
   (⟨2026, 5, 9⟩, ⟨2026, 5, 13⟩), (⟨2026, 5, 10⟩, ⟨2026, 5, 14⟩)]

/-- The sampler's actual output on `ex1pairs` with target 4. -/
def ex1out : List DatePair :=
  [(⟨2026, 4, 2⟩, ⟨2026, 4, 6⟩),
   (⟨2026, 5, 1⟩, ⟨2026, 5, 5⟩), (⟨2026, 5, 6⟩, ⟨2026, 5, 10⟩)]

theorem select_distributed_bounds_witness :
    ex1out.length ≤ 4 ∧ (ex1pairs.length ≤ 4 → ex1out = ex1pairs) ∧
    (4 < ex1pairs.length → ∀ m ∈ monthsOf ex1pairs,
      ∃ p ∈ ex1out, monthKey p = m) :=
  select_distributed_bounds ex1pairs 4 ex1out (by rfl)

/-- C1 (counterexample to the claimed lower bound): on 11 pairs spanning an
April month of 1 pair and a May month of 10 pairs, with
`target_count = 4`, the sampler returns only 3 pairs — fewer than
`min(target_count, len(all_pairs)) = 4` (April contributes its single pair
against an allocation of 2, and the shortfall is never redistributed). -/
theorem select_lower_bound_cex :
    select_distributed_dates ex1pairs 4 = .ok ex1out ∧
    ex1out.length < min 4 ex1pairs.length :=
  ⟨by rfl, by decide⟩

lemma filterMap_eq_map_of_some {α β : Type} (f : α → Option β) (g : α → β)
    (l : List α) (h : ∀ a ∈ l, f a = some (g a)) : l.filterMap f = l.map g := by
  induction l with
  | nil => rfl
  | cons a t ih =>
    rw [List.filterMap_cons, h a (by simp), List.map_cons,
      ih (fun b hb => h b (by simp [hb]))]

/-- C6 (amended): within a month of `m` pairs allocated `k` slots with
`0 < k < m`, `select_distributed_dates` (via its inner selection
`selectFromMonth`) picks exactly the pairs at indices `j * (m // k)` for
`j = 0 .. k-1` — an integer-division stride, not the claimed
`floor(j * (m / k))` (see `select_stride_cex`; `select_smart_dates` in
`paris_weekend_finder.py` instead uses the float stride `m / k`). -/
theorem selectFromMonth_stride_spec (md : List DatePair) (num : Nat)
    (h1 : 0 < num) (h2 : num < md.length) :
    ∃ sel, selectFromMonth md num = .ok sel ∧ sel.length = num ∧
      ∀ j, j < num → sel.get? j = md.get? (j * (md.length / num)) := by
  have hstride : ∀ j, j < num → j * (md.length / num) < md.length := by
    intro j hj
    have hq1 : 1 ≤ md.length / num := (Nat.one_le_div_iff h1).mpr (le_of_lt h2)
    have hqn : num * (md.length / num) ≤ md.length := by
      rw [Nat.mul_comm]
      exact Nat.div_mul_le_self _ _
    have hj1 : j * (md.length / num) ≤ (num - 1) * (md.length / num) :=
      Nat.mul_le_mul_right _ (by omega)
    have he1 : (num - 1) * (md.length / num)
        = num * (md.length / num) - md.length / num := by
      rw [Nat.sub_mul, Nat.one_mul]
    have hpos : 0 < num * (md.length / num) := Nat.mul_pos h1 hq1
    have h3 : (num - 1) * (md.length / num) < num * (md.length / num) := by
      rw [he1]
      exact Nat.sub_lt hpos hq1
    omega
  have hsome : ∀ j ∈ List.range num,
      md.get? (j * (md.length / num))
        = some (md.getD (j * (md.length / num)) default) := by
    intro j hj
    rw [List.mem_range] at hj
    have hlt := hstride j hj
    rw [List.getD_eq_get?, List.get?_eq_get hlt]
    rfl
  refine ⟨(List.range num).map
      (fun j => md.getD (j * (md.length / num)) default), ?_, ?_, ?_⟩
  · unfold selectFromMonth
    rw [if_neg (by omega), if_neg (by omega)]
    rw [filterMap_eq_map_of_some _ _ _ hsome]
  · simp
  · intro j hj
    rw [List.get?_map, List.get?_range hj, hsome j (List.mem_range.mpr hj)]
    rfl

/-- Five pairs in a single month (May 2026). -/
def ex6md : List DatePair :=
  [(⟨2026, 5, 1⟩, ⟨2026, 5, 5⟩), (⟨2026, 5, 2⟩, ⟨2026, 5, 6⟩),
   (⟨2026, 5, 3⟩, ⟨2026, 5, 7⟩), (⟨2026, 5, 4⟩, ⟨2026, 5, 8⟩),
   (⟨2026, 5, 5⟩, ⟨2026, 5, 9⟩)]

theorem selectFromMonth_stride_spec_witness :
    (selectFromMonth ex6md 3).map List.length = .ok 3 := by
  obtain ⟨sel, hs, hlen, _⟩ :=
    selectFromMonth_stride_spec ex6md 3 (by norm_num) (by decide)
  rw [hs]
  simp [Except.map, hlen]

/-- C6 (counterexample): on a single month of `m = 5` pairs with allocation
`k = 3` (input `ex6md`, target 3), the sampler selects indices
`j * (5 // 3) = 0, 1, 2`, whereas the claimed formula
`floor(j * (5 / 3)) = (j * 5) // 3` gives indices `0, 1, 3`. -/
theorem select_stride_cex :
    select_distributed_dates ex6md 3 =
      .ok [(⟨2026, 5, 1⟩, ⟨2026, 5, 5⟩), (⟨2026, 5, 2⟩, ⟨2026, 5, 6⟩),
           (⟨2026, 5, 3⟩, ⟨2026, 5, 7⟩)] ∧
    ¬ ([(⟨2026, 5, 1⟩, ⟨2026, 5, 5⟩), (⟨2026, 5, 2⟩, ⟨2026, 5, 6⟩),
        (⟨2026, 5, 3⟩, ⟨2026, 5, 7⟩)]
      = (List.range 3).filterMap (fun j => ex6md.get? ((j * 5) / 3))) :=
  ⟨by rfl, by decide⟩

lemma optLt_iff {x y : Option Int} : optLt x y = true ↔ extK x < extK y := by
  cases x <;> cases y <;>
    simp [optLt, extK, WithTop.coe_lt_top, WithTop.coe_lt_coe]

lemma optLt_false_iff {x y : Option Int} :
    optLt x y = false ↔ extK y ≤ extK x := by
  rw [← Bool.not_eq_true, optLt_iff, not_lt]

lemma minByFold_spec {α : Type} (key : α → Option Int) :
    ∀ (l : List α) (a : α),
      ∃ i, (a :: l).get? i = some (minByFold key a l) ∧
        (∀ j b, (a :: l).get? j = some b →
          extK (key (minByFold key a l)) ≤ extK (key b)) ∧
        (∀ j b, j < i → (a :: l).get? j = some b →
          extK (key (minByFold key a l)) < extK (key b)) := by
  intro l
  induction l with
  | nil =>
    intro a
    refine ⟨0, rfl, ?_, ?_⟩
    · intro j b hj
      cases j with
      | zero =>
        injection hj with h
        subst h
        exact le_refl _
      | succ n => simp at hj
    · intro j b hj _
      omega
  | cons x t ih =>
    intro a
    by_cases hxa : optLt (key x) (key a) = true
    · have hstep : minByFold key a (x :: t) = minByFold key x t := by
        unfold minByFold
        rw [List.foldl_cons, if_pos hxa]
      obtain ⟨i, hi, hmin, hfirst⟩ := ih x
      have hlt : extK (key (minByFold key x t)) < extK (key a) :=
        lt_of_le_of_lt (hmin 0 x rfl) (optLt_iff.mp hxa)
      refine ⟨i + 1, ?_, ?_, ?_⟩
      · rw [hstep]
        exact hi
      · intro j b hj
        cases j with
        | zero =>
          injection hj with h
          subst h
          rw [hstep]
          exact le_of_lt hlt
        | succ n =>
          rw [hstep]
          exact hmin n b hj
      · intro j b hj hget
        cases j with
        | zero =>
          injection hget with h
          subst h
          rw [hstep]
          exact hlt
        | succ n =>
          rw [hstep]
          exact hfirst n b (by omega) hget
    · have hxa' : optLt (key x) (key a) = false := by
        cases hval : optLt (key x) (key a)
        · rfl
        · exact absurd hval hxa
      have hstep : minByFold key a (x :: t) = minByFold key a t := by
        unfold minByFold
        rw [List.foldl_cons, if_neg hxa]
      obtain ⟨i, hi, hmin, hfirst⟩ := ih a
      have hax : extK (key a) ≤ extK (key x) := optLt_false_iff.mp hxa'
      have hm_le_a : extK (key (minByFold key a t)) ≤ extK (key a) :=
        hmin 0 a rfl
      cases i with
      | zero =>
        refine ⟨0, ?_, ?_, ?_⟩
        · rw [hstep]
          exact hi
        · intro j b hj
          cases j with
          | zero =>
            injection hj with h
            subst h
            rw [hstep]
            exact hm_le_a
          | succ n =>
            cases n with
            | zero =>
              injection hj with h
              subst h
              rw [hstep]
              exact le_trans hm_le_a hax
            | succ n2 =>
              rw [hstep]
              exact hmin (n2 + 1) b hj
        · intro j b hj _
          omega
      | succ i2 =>
        refine ⟨i2 + 2, ?_, ?_, ?_⟩
        · rw [hstep]
          exact hi
        · intro j b hj
          cases j with
          | zero =>
            injection hj with h
            subst h
            rw [hstep]
            exact hm_le_a
          | succ n =>
            cases n with
            | zero =>
              injection hj with h
              subst h
              rw [hstep]
              exact le_trans hm_le_a hax
            | succ n2 =>
              rw [hstep]
              exact hmin (n2 + 1) b hj
        · intro j b hj hget
          cases j with
          | zero =>
            injection hget with h
            subst h
            rw [hstep]
            exact hfirst 0 a (by omega) rfl
          | succ n =>
            cases n with
            | zero =>
              injection hget with h
              subst h
              rw [hstep]
              exact lt_of_lt_of_le (hfirst 0 a (by omega) rfl) hax
            | succ n2 =>
              rw [hstep]
              exact hfirst (n2 + 1) b (by omega) hget

/-- C7: the extractor reads `best_flights`, falls back to `other_flights`
when that list is empty, returns `none` (without raising) when both are
empty, and otherwise selects the itinerary with minimum price — a missing
price counting as `+∞` — with ties resolved in favor of the earliest
itinerary in list order (`i` below is the index of the chosen itinerary:
it is no worse than every entry and strictly better than every earlier
entry). -/
theorem extract_best_flight_spec (sd : SearchData)
    (dest dcity dep ret : String) :
    (sd.best_flights = [] → sd.other_flights = [] →
      extract_best_flight sd dest dcity dep ret = none) ∧
    (sd.best_flights ≠ [] → effectiveFlights sd = sd.best_flights) ∧
    (sd.best_flights = [] → effectiveFlights sd = sd.other_flights) ∧
    (∀ fo, extract_best_flight sd dest dcity dep ret = some fo →
      ∃ i, (effectiveFlights sd).get? i = some fo.search_data ∧
        (∀ j b, (effectiveFlights sd).get? j = some b →
          extK fo.search_data.price ≤ extK b.price) ∧
        (∀ j b, j < i → (effectiveFlights sd).get? j = some b →
          extK fo.search_data.price < extK b.price)) ∧
    (effectiveFlights sd ≠ [] →
      extract_best_flight sd dest dcity dep ret ≠ none) := by
  refine ⟨?_, ?_, ?_, ?_, ?_⟩
  · intro h1 h2
    unfold extract_best_flight effectiveFlights
    rw [h1, h2]
    rfl
  · intro h1
    unfold effectiveFlights
    rw [if_neg]
    simp [h1]
  · intro h1
    unfold effectiveFlights
    rw [h1]
    rfl
  · intro fo hfo
    unfold extract_best_flight at hfo
    cases heff : effectiveFlights sd with
    | nil =>
      rw [heff] at hfo
      exact absurd hfo (by simp)
    | cons a rest =>
      rw [heff] at hfo
      injection hfo with h1
      subst h1
      obtain ⟨i, hi, hmin, hfirst⟩ :=
        minByFold_spec (fun x : Itinerary => x.price) rest a
      refine ⟨i, ?_, ?_, ?_⟩
      · exact hi
      · intro j b hj
        exact hmin j b hj
      · intro j b hj hget
        exact hfirst j b hj hget
  · intro h1
    unfold extract_best_flight
    cases heff : effectiveFlights sd with
    | nil => exact absurd heff h1
    | cons a rest => simp

theorem extract_best_flight_spec_witness :
    extract_best_flight ⟨[], []⟩ "paris" "Paris" "2026-04-01" "2026-04-05"
      = none :=
  (extract_best_flight_spec ⟨[], []⟩ "paris" "Paris" "2026-04-01"
    "2026-04-05").1 rfl rfl

lemma keysAux_mem {α β : Type} [DecidableEq β] (f : α → β) :
    ∀ (l : List α) (seen : List β) (k : β),
      k ∈ keysAux f seen l → ∃ a ∈ l, f a = k := by
  intro l
  induction l with
  | nil =>
    intro seen k hk
    simp [keysAux] at hk
  | cons a t ih =>
    intro seen k hk
    unfold keysAux at hk
    split at hk
    · obtain ⟨b, hb, hbk⟩ := ih seen k hk
      exact ⟨b, by simp [hb], hbk⟩
    · rw [List.mem_cons] at hk
      rcases hk with hk | hk
      · exact ⟨a, by simp, hk.symm⟩
      · obtain ⟨b, hb, hbk⟩ := ih (f a :: seen) k hk
        exact ⟨b, by simp [hb], hbk⟩

lemma listMin_ok {l : List Int} (h : l ≠ []) : ∃ v, listMin l = .ok v := by
  cases l with
  | nil => exact absurd rfl h
  | cons a t => exact ⟨t.foldl min a, rfl⟩

lemma listMax_ok {l : List Int} (h : l ≠ []) : ∃ v, listMax l = .ok v := by
  cases l with
  | nil => exact absurd rfl h
  | cons a t => exact ⟨t.foldl max a, rfl⟩

lemma pyFloorDiv_ok {a b : Int} (h : b ≠ 0) :
    pyFloorDiv a b = .ok (Int.fdiv a b) := by
  unfold pyFloorDiv
  rw [if_neg h]

lemma minByE_some {α : Type} (key : α → Option Int) {l : List α} (h : l ≠ []) :
    ∃ v, minByE key l = some v := by
  cases l with
  | nil => exact absurd rfl h
  | cons a t => exact ⟨minByFold key a t, rfl⟩

lemma mapME_ok {α β : Type} (f : α → Except Unit β) :
    ∀ l : List α, (∀ a ∈ l, ∃ b, f a = .ok b) →
      ∃ bs, mapME f l = .ok bs := by
  intro l
  induction l with
  | nil =>
    intro _
    exact ⟨[], rfl⟩
  | cons a t ih =>
    intro h
    obtain ⟨b, hb⟩ := h a (by simp)
    obtain ⟨bs, hbs⟩ := ih (fun x hx => h x (by simp [hx]))
    refine ⟨b :: bs, ?_⟩
    unfold mapME
    rw [hb, hbs]

lemma pricesOf_ne_nil {rs : List QuoteRecord} (h : rs ≠ []) :
    pricesOf rs ≠ [] := by
  unfold pricesOf
  simp [h]

lemma monthStats_ok (results : List QuoteRecord) (k : String)
    (hres : results ≠ [])
    (hk : results.filter (fun r => decide (r.month = k)) ≠ []) :
    ∃ s, monthStats results k = .ok s := by
  obtain ⟨mn, hmn⟩ := listMin_ok (pricesOf_ne_nil hk)
  have hlen : ((results.filter (fun r => decide (r.month = k))).length : Int) ≠ 0 := by
    have := List.length_pos.mpr hk
    omega
  obtain ⟨bd, hbd⟩ := minByE_some
    (fun r => if r.month = k then some r.price else none) hres
  unfold monthStats
  rw [hmn, pyFloorDiv_ok hlen, hbd]
  exact ⟨_, rfl⟩

lemma dayStats_ok (results : List QuoteRecord) (k : String)
    (hk : results.filter (fun r => decide (r.departure_day = k)) ≠ []) :
    ∃ s, dayStats results k = .ok s := by
  have hlen : ((results.filter
      (fun r => decide (r.departure_day = k))).length : Int) ≠ 0 := by
    have := List.length_pos.mpr hk
    omega
  unfold dayStats
  rw [pyFloorDiv_ok hlen]
  exact ⟨_, rfl⟩

lemma byMonth_ok (results : List QuoteRecord) (h : results ≠ []) :
    ∃ bm, byMonth results = .ok bm := by
  apply mapME_ok
  intro k hk
  unfold keysInOrder at hk
  obtain ⟨r, hr, hrk⟩ := keysAux_mem (fun r => r.month) results [] k hk
  have hfil : results.filter (fun r => decide (r.month = k)) ≠ [] := by
    apply List.ne_nil_of_mem (a := r)
    rw [List.mem_filter]
    exact ⟨hr, by simp [hrk]⟩
  exact monthStats_ok results k h hfil

lemma byDay_ok (results : List QuoteRecord) (h : results ≠ []) :
    ∃ bd, byDay results = .ok bd := by
  apply mapME_ok
  intro k hk
  unfold keysInOrder at hk
  obtain ⟨r, hr, hrk⟩ := keysAux_mem (fun r => r.departure_day) results [] k hk
  have hfil : results.filter (fun r => decide (r.departure_day = k)) ≠ [] := by
    apply List.ne_nil_of_mem (a := r)
    rw [List.mem_filter]
    exact ⟨hr, by simp [hrk]⟩
  exact dayStats_ok results k hfil

lemma pricesOf_length (rs : List QuoteRecord) :
    (pricesOf rs).length = rs.length := by
  unfold pricesOf
  exact List.length_map rs _

lemma median_get_eq (rs : List QuoteRecord) (h : rs ≠ []) :
    (sortInts (pricesOf rs)).get? ((pricesOf rs).length / 2)
      = some (spec_price_median rs) := by
  rw [pricesOf_length]
  have hidx : rs.length / 2 < (sortInts (pricesOf rs)).length := by
    have hl : (sortInts (pricesOf rs)).length = (pricesOf rs).length := by
      unfold sortInts
      exact (List.perm_insertionSort _ _).length_eq
    rw [hl, pricesOf_length]
    exact Nat.div_lt_self (List.length_pos.mpr h) (by norm_num)
  unfold spec_price_median
  rw [List.getD_eq_get?, List.get?_eq_get hidx]
  rfl

/-- Workhorse: on a nonempty record list `analyze` succeeds, its `best_deals`
field is the first five input records, and its average and median fields are
the spec formulas. -/
lemma analyze_ok_spec (rs : List QuoteRecord) (c : Nat) (h : rs ≠ []) :
    ∃ a, analyze rs c = .ok (some a) ∧ a.best_deals = rs.take 5 ∧
      a.price_avg = spec_price_avg rs ∧
      a.price_median = spec_price_median rs := by
  obtain ⟨mn, hmn⟩ := listMin_ok (pricesOf_ne_nil h)
  obtain ⟨mx, hmx⟩ := listMax_ok (pricesOf_ne_nil h)
  have hlen : ((pricesOf rs).length : Int) ≠ 0 := by
    have h1 : 0 < (pricesOf rs).length := by
      rw [pricesOf_length]
      exact List.length_pos.mpr h
    omega
  have hdiv : pyFloorDiv (pricesOf rs).sum ((pricesOf rs).length : Int)
      = .ok (spec_price_avg rs) := by
    rw [pyFloorDiv_ok hlen]
    unfold spec_price_avg
    rw [pricesOf_length]
  have hmed := median_get_eq rs h
  obtain ⟨bm, hbm⟩ := byMonth_ok rs h
  obtain ⟨bd, hbd⟩ := byDay_ok rs h
  unfold analyze
  rw [if_neg h, hmn, hmx, hdiv, hmed, hbm, hbd]
  exact ⟨_, rfl, rfl, rfl, rfl⟩

/-- C5: for every nonempty record list, the aggregator's `price_avg` is the
floor division of the price sum by the record count and its `price_median`
is the ascending-sorted price list's element at index `len // 2` (upper
median; on prices `[100, 200, 300, 400]` this gives `avg = 250`,
`median = 300` — see the witness). -/
theorem analyze_avg_median_spec (rs : List QuoteRecord) (c : Nat)
    (h : rs ≠ []) :
    (analyze rs c).map (Option.map (fun a => (a.price_avg, a.price_median)))
      = .ok (some (spec_price_avg rs, spec_price_median rs)) := by
  obtain ⟨a, ha, _, havg, hmed⟩ := analyze_ok_spec rs c h
  rw [ha]
  simp [Except.map, havg, hmed]

/-- A quote record with the given price (other fields fixed sample data). -/
def qrec (n : Int) : QuoteRecord :=
  { departure_date := "2026-04-01", return_date := "2026-04-05", price := n,
    duration_minutes := 240, airline := "El Al", direct_flight := true,
    layovers := [], departure_day := "Wednesday", return_day := "Sunday",
    month := "April" }

def ex5recs : List QuoteRecord := [qrec 100, qrec 200, qrec 300, qrec 400]

theorem analyze_avg_median_spec_witness :
    (analyze ex5recs 0).map (Option.map (fun a => (a.price_avg, a.price_median)))
      = .ok (some (250, 300)) := by
  rw [analyze_avg_median_spec ex5recs 0 (by decide)]
  rfl

/-- C2 (amended): `analyze_results` itself takes `best_deals` as the first
five records of its input *in the order supplied* (no internal sort — see
`analyze_best_deals_cex`); the pipeline sorts by price ascending before
calling it (`run_complete_scan`, line 187), and on that sorted input the
`best_deals` are the first five of the price-sorted permutation of the
records — each no more expensive than every record left out. -/
theorem analyze_best_deals_of_sorted (rs : List QuoteRecord) (c : Nat)
    (h : rs ≠ []) :
    (analyze (sortByPrice rs) c).map (Option.map (fun a => a.best_deals))
      = .ok (some ((sortByPrice rs).take 5)) ∧
    List.Perm (sortByPrice rs) rs ∧
    List.Sorted priceLe (sortByPrice rs) ∧
    ∀ x ∈ (sortByPrice rs).take 5, ∀ y ∈ (sortByPrice rs).drop 5,
      x.price ≤ y.price := by
  have hperm : List.Perm (sortByPrice rs) rs :=
    List.perm_insertionSort priceLe rs
  have hne : sortByPrice rs ≠ [] := by
    intro hnil
    apply h
    have hlen := hperm.length_eq
    rw [hnil] at hlen
    exact List.eq_nil_of_length_eq_zero hlen.symm
  obtain ⟨a, ha, hbd, _, _⟩ := analyze_ok_spec (sortByPrice rs) c hne
  have hsorted : List.Sorted priceLe (sortByPrice rs) :=
    List.sorted_insertionSort priceLe rs
  refine ⟨?_, hperm, hsorted, ?_⟩
  · rw [ha]
    simp [Except.map, hbd]
  · intro x hx y hy
    have hpw : List.Pairwise priceLe
        ((sortByPrice rs).take 5 ++ (sortByPrice rs).drop 5) := by
      rw [List.take_append_drop]
      exact hsorted
    exact (List.pairwise_append.mp hpw).2.2 x hx y hy

def ex2wrecs : List QuoteRecord := [qrec 3, qrec 1, qrec 2]

theorem analyze_best_deals_of_sorted_witness :
    (analyze (sortByPrice ex2wrecs) 0).map (Option.map (fun a => a.best_deals))
      = .ok (some ((sortByPrice ex2wrecs).take 5)) :=
  (analyze_best_deals_of_sorted ex2wrecs 0 (by decide)).1

def ex2recs : List QuoteRecord :=
  [qrec 6, qrec 5, qrec 4, qrec 3, qrec 2, qrec 1]

/-- C2 (counterexample): `analyze_results` does *not* sort — on the
price-descending input `ex2recs` (prices 6,5,4,3,2,1) its `best_deals` are
the first five supplied records (prices 6..2); the strictly cheapest record
(price 1, a member of the input, cheaper than everything selected) is left
out, so `best_deals` does not consist of the 5 lowest-priced records of the
input when the input is not already price-sorted. -/
theorem analyze_best_deals_cex :
    (analyze ex2recs 0).map (Option.map (fun a => a.best_deals))
      = .ok (some [qrec 6, qrec 5, qrec 4, qrec 3, qrec 2]) ∧
    qrec 1 ∈ ex2recs ∧
    (qrec 1).price < (qrec 2).price ∧
    qrec 6 ∈ [qrec 6, qrec 5, qrec 4, qrec 3, qrec 2] ∧
    (qrec 1).price < (qrec 6).price ∧
    qrec 1 ∉ [qrec 6, qrec 5, qrec 4, qrec 3, qrec 2] :=
  ⟨by rfl, by decide, by decide, by decide, by decide, by decide⟩
